import Mathlib

/-!
Shallow embedding of `h.py`, a command launcher: configuration loading
(`Config`/`Util.read_file`), the variable resolver (`Core._handle_variables`),
the dispatcher (`Core.run`), the selector outcome parsing
(`Core.interactive`), and CLI argument parsing (`Arguments._parse_title`).
Strings are modelled as `List Char`; Python dicts (insertion ordered) as
association lists with in-place update; the file system and the interactive
prompt as explicit oracles.  Environment-variable and home-directory
expansion (`Util.replace_env`) is external I/O and is modelled as the
identity: the file-system oracle is keyed by already-expanded paths.
-/

namespace H

abbrev Str := List Char

/-- Coerce a Lean string literal to the `List Char` representation. -/
def str (s : String) : Str := s.data

/-- Python `s.strip(bad)`: remove the given characters from both ends. -/
def stripChars (bad : List Char) (s : Str) : Str :=
  ((s.dropWhile (fun c => bad.contains c)).reverse.dropWhile
    (fun c => bad.contains c)).reverse

/-- The characters stripped by Python `str.strip()` with no argument. -/
def wsChars : List Char := [' ', '\t', '\n', '\r', '\x0b', '\x0c']

/-- Python `s.strip()` (default whitespace). -/
def stripWS (s : Str) : Str := stripChars wsChars s

/-- Python `s.strip('\r\n\t ')` as used throughout the config parser. -/
def stripCfg (s : Str) : Str := stripChars ['\r', '\n', '\t', ' '] s

/-- `begins pat s` is true when `pat` is an initial segment of `s`
(Python `s.startswith(pat)`). -/
def begins : Str → Str → Bool
  | [], _ => true
  | _ :: _, [] => false
  | p :: ps, c :: cs => if p = c then begins ps cs else false

/-- Python `s.partition(t)` restricted to what the code uses: split at the
first occurrence of character `t`; `none` when `t` does not occur. -/
def partChar (t : Char) : Str → Option (Str × Str)
  | [] => none
  | c :: cs => if c = t then some ([], cs) else
      (partChar t cs).map (fun p => (c :: p.1, p.2))

/-- Python `s.split(t)` for a single-character separator (always returns at
least one piece; `''.split(',') == ['']`). -/
def splitOnChar (t : Char) : Str → List Str
  | [] => [[]]
  | c :: cs =>
    let r := splitOnChar t cs
    if c = t then [] :: r
    else
      match r with
      | [] => [[c]]
      | h :: tl => (c :: h) :: tl

/-- Python `s.find(pat)`: index of the first occurrence of `pat` in `s`,
`none` standing for `-1`. -/
def pyFind (pat : Str) : Str → Option Nat
  | [] => if begins pat [] then some 0 else none
  | c :: cs =>
    if begins pat (c :: cs) then some 0
    else (pyFind pat cs).map (· + 1)

/-- Fueled worker for Python `s.replace(pat, new)` (all non-overlapping
occurrences, left to right).  The fuel makes the recursion structural so the
kernel can evaluate it; `replaceAll` supplies enough fuel.  The code only
ever replaces non-empty marker strings, so the empty-pattern guard is never
exercised. -/
def replaceAllF (pat new : Str) : Nat → Str → Str
  | 0, s => s
  | _ + 1, [] => []
  | fuel + 1, c :: cs =>
    if pat ≠ [] ∧ begins pat (c :: cs) then
      new ++ replaceAllF pat new fuel (cs.drop (pat.length - 1))
    else
      c :: replaceAllF pat new fuel cs

/-- Python `s.replace(pat, new)`. -/
def replaceAll (pat new : Str) (s : Str) : Str := replaceAllF pat new s.length s

/-- `Core.mark_open = '$(?'`. -/
def markOpen : Str := ['$', '(', '?']

/-- `Core.mark_close = ')'`. -/
def markClose : Str := [')']

/-- One scanned variable marker occurrence (`variables[name]` entry in
`Core._handle_variables`): the parsed name, the default, the raw interior
text `full_name`, and the literal marker text `mark`. -/
structure VarOcc where
  name : Str
  dflt : Str
  fullName : Str
  mark : Str
deriving DecidableEq, Repr

/-- Build the `variables[name]` record from the raw interior text of a
marker: `name, _, default = full_name.strip().partition(':')`. -/
def mkOcc (inner : Str) : VarOcc :=
  let st := stripWS inner
  match partChar ':' st with
  | none => ⟨st, [], inner, markOpen ++ inner ++ markClose⟩
  | some (n, d) => ⟨n, d, inner, markOpen ++ inner ++ markClose⟩

/-- Fueled marker scanner, one step per character.  `mode = none` is the
outer loop of `Core._handle_variables` looking for `'$(?'`; `mode = some acc`
is collecting the interior of a marker until the first `')'` (the Python
loop resumes the search at the `')'` position, which can never start a new
`'$(?'`, so resuming after it is equivalent).  An unterminated marker
(`'$(?'` with no later `')'`) ends the scan with nothing further collected,
mirroring the `break` on `find` failure. -/
def scanF : Nat → Option Str → Str → List VarOcc
  | 0, _, _ => []
  | _ + 1, none, [] => []
  | fuel + 1, none, c :: cs =>
    if begins markOpen (c :: cs) then scanF fuel (some []) (cs.drop 2)
    else scanF fuel none cs
  | _ + 1, some _, [] => []
  | fuel + 1, some acc, c :: cs =>
    if c = ')' then mkOcc acc :: scanF fuel none cs
    else scanF fuel (some (acc ++ [c])) cs

/-- The ordered list of marker occurrences in a template (the scan loop of
`Core._handle_variables`, before the dict keying collapses duplicates). -/
def occs (s : Str) : List VarOcc := scanF (s.length + 1) none s

/-- The interior-collecting state of the scanner, as a named entry point for
reasoning. -/
def scanInner (acc : Str) (s : Str) : List VarOcc :=
  scanF (s.length + 1) (some acc) s

/-- Python dict insert `d[k] = v` for the variables table: replace in place
when the name is present (keeping its position), else append. -/
def dictInsert (t : List VarOcc) (v : VarOcc) : List VarOcc :=
  match t with
  | [] => [v]
  | w :: ws => if w.name = v.name then v :: ws else w :: dictInsert ws v

/-- The `variables` dict of `Core._handle_variables`: occurrences in scan
order, keyed by name, later occurrences overwriting earlier ones in place. -/
def varTable (s : Str) : List VarOcc := (occs s).foldl dictInsert []

/-- `variables.get(name)`. -/
def lookupVar : List VarOcc → Str → Option VarOcc
  | [], _ => none
  | v :: vs, n => if v.name = n then some v else lookupVar vs n

/-- `variables.pop(name)` (names are unique in the table). -/
def removeVar : List VarOcc → Str → List VarOcc
  | [], _ => []
  | v :: vs, n => if v.name = n then vs else v :: removeVar vs n

/-- The last occurrence in a list carrying a given name, if any. -/
def lastNamed : List VarOcc → Str → Option VarOcc
  | [], _ => none
  | v :: vs, n =>
    match lastNamed vs n with
    | some w => some w
    | none => if v.name = n then some v else none

/-- A key of the argument dict built by `Arguments._parse_title`: a
zero-based position for a bare argument, or a name for `key=value`. -/
inductive ArgKey where
  | pos (i : Nat)
  | name (n : Str)
deriving DecidableEq, Repr

/-- Looking an argument key up in the variables table: an integer key never
matches (the table is keyed by strings). -/
def keyLookup (vars : List VarOcc) : ArgKey → Option VarOcc
  | .pos _ => none
  | .name n => lookupVar vars n

/-- Python dict insert for the argument dict (duplicate `key=value` names
overwrite in place). -/
def argInsert : List (ArgKey × Str) → ArgKey → Str → List (ArgKey × Str)
  | [], k, v => [(k, v)]
  | (k', v') :: rest, k, v =>
    if k' = k then (k, v) :: rest else (k', v') :: argInsert rest k v

/-- The loop of `Arguments._parse_title`: `key=value` arguments bind by
name, bare arguments by their index in the argument list. -/
def parseArgs (i : Nat) (acc : List (ArgKey × Str)) : List Str → List (ArgKey × Str)
  | [] => acc
  | a :: rest =>
    match partChar '=' a with
    | some (n, v) => parseArgs (i + 1) (argInsert acc (ArgKey.name n) v) rest
    | none => parseArgs (i + 1) (argInsert acc (ArgKey.pos i) a) rest

/-- `Arguments._parse_title`: `none` when no title was given. -/
def parseTitle : List Str → Option (Str × List (ArgKey × Str))
  | [] => none
  | cmd :: args => some (cmd, parseArgs 0 [] args)

/-- State after the named pass of `Core._handle_variables`: the partially
substituted command, the arguments not consumed (in insertion order), and
the variables still pending (in first-discovery order). -/
structure NPSt where
  cmd : Str
  rem : List (ArgKey × Str)
  vars : List VarOcc
deriving DecidableEq, Repr

/-- Named pass (`for name in list(args.keys())`): a binding whose key is a
name with a pending variable substitutes every occurrence of that
variable's literal marker text and both are removed; every other binding —
positional or unmatched named — is kept. -/
def namedPass (cmd : Str) (args : List (ArgKey × Str)) (vars : List VarOcc) : NPSt :=
  match args with
  | [] => ⟨cmd, [], vars⟩
  | (k, val) :: rest =>
    match keyLookup vars k with
    | none =>
      let r := namedPass cmd rest vars
      ⟨r.cmd, (k, val) :: r.rem, r.vars⟩
    | some v =>
      namedPass (replaceAll v.mark val cmd) rest
        (removeVar vars (match k with | .pos _ => [] | .name n => n))

/-- Positional pass (`values = list(args.values())` then the zip loop): the
values of the remaining bindings, in insertion order, are assigned
one-by-one to the pending variables in order; leftover variables stay
pending, leftover values are dropped. -/
def positionalPass (cmd : Str) : List Str → List VarOcc → Str × List VarOcc
  | [], vars => (cmd, vars)
  | _ :: _, [] => (cmd, [])
  | x :: xs, v :: vs => positionalPass (replaceAll v.mark x cmd) xs vs

/-- Interactive pass: each still-pending variable is prompted for (the
prompt shows its raw interior text `full_name`); an empty response falls
back to the default (which is itself empty when the marker had no colon).
`inputs` is the scripted prompt source; responses beyond its end are
empty.  Returns the final command and the list of prompts issued. -/
def interactivePass (cmd : Str) (vars : List VarOcc) (inputs : List Str) :
    Str × List Str :=
  match vars with
  | [] => (cmd, [])
  | v :: vs =>
    let resp := inputs.headD []
    let data := if resp = [] then v.dflt else resp
    let r := interactivePass (replaceAll v.mark data cmd) vs inputs.tail
    (r.1, v.fullName :: r.2)

/-- `Core._handle_variables(command, args)`: scan, then the three binding
passes.  Returns the resolved command and the prompts issued. -/
def handleVariables (cmd : Str) (args : List (ArgKey × Str)) (inputs : List Str) :
    Str × List Str :=
  let vt := varTable cmd
  let r1 := namedPass cmd args vt
  let r2 := positionalPass r1.cmd (r1.rem.map Prod.snd) r1.vars
  interactivePass r2.1 r2.2 inputs

/-- `ConfigItem`: one section of the configuration. -/
structure ConfigItem where
  title : Str
  command : Str
  tool : Option Str
  flags : Option Str
  includes : Option (List Str)
deriving DecidableEq, Repr

/-- `ConfigItem.__init__`. -/
def ConfigItem.new (t : Str) : ConfigItem := ⟨t, [], none, none, none⟩

/-- `Config.SETTINGS`. -/
def settingsTitle : Str := str "__SETTINGS__"

/-- `config.get(title)` over the insertion-ordered mapping. -/
def cfgFind : List ConfigItem → Str → Option ConfigItem
  | [], _ => none
  | it :: rest, t => if it.title = t then some it else cfgFind rest t

/-- `title in config`. -/
def cfgHas (cfg : List ConfigItem) (t : Str) : Bool := (cfgFind cfg t).isSome

/-- `if title not in config: config[title] = ConfigItem(title)`. -/
def cfgEnsure (cfg : List ConfigItem) (t : Str) : List ConfigItem :=
  if cfgHas cfg t then cfg else cfg ++ [ConfigItem.new t]

/-- The field-assignment chain of `Config._load_config`: recognized fields
overwrite just that attribute of the item; unrecognized fields are silently
ignored. -/
def setField (field value : Str) (it : ConfigItem) : ConfigItem :=
  if field = str "command" then { it with command := value }
  else if field = str "tool" then { it with tool := some value }
  else if field = str "flags" then { it with flags := some value }
  else if field = str "includes" then
    { it with includes := some (splitOnChar ',' value) }
  else it

/-- Apply a field assignment to the (unique) item carrying a title. -/
def cfgSet (cfg : List ConfigItem) (t : Str) (field value : Str) : List ConfigItem :=
  cfg.map (fun it => if it.title = t then setField field value it else it)

/-- The failures of configuration loading.  `notFound` and `unreadable` are
the two asserts of `Util.read_file`; `badLine` is the unterminated-header
assert of `Config._load_config`; `settingsMissing` models the
`AttributeError` raised by `Config.__init__` when `get_settings()` is
`None`, and `includesMissing` the `TypeError` of iterating `includes` when
it is `None`. -/
inductive ConfigErr where
  | notFound (filename : Str)
  | unreadable (filename : Str)
  | badLine (filename : Str) (lineNum : Nat) (line : Str)
  | settingsMissing
  | includesMissing
deriving DecidableEq, Repr

/-- The file system oracle, keyed by expanded path: `none` when the file
does not exist, `some none` when no supported encoding decodes it (all of
`open`'s attempts raise), `some (some c)` when it decodes to `c`. -/
def FS := Str → Option (Option Str)

/-- `Util.read_file`: strip the filename, require existence, require a
decode, and — because of `assert content` on the decoded string — also
reject an empty (but perfectly decodable) file as unreadable. -/
def readFile (fs : FS) (filename : Str) : Except ConfigErr Str :=
  let fn := stripWS filename
  match fs fn with
  | none => .error (.notFound fn)
  | some none => .error (.unreadable fn)
  | some (some content) =>
    if content = [] then .error (.unreadable fn) else .ok content

/-- Parser state of `Config._load_config`: the mapping so far and the
current section title (the settings title before any header). -/
structure PSt where
  cfg : List ConfigItem
  title : Str
deriving DecidableEq, Repr

/-- One line of `Config._load_config`: strip, skip blanks and comments,
open a section on `[title]` (an opener without a trailing `]` is the syntax
error), otherwise split on the first `=` and assign the field. -/
def processLine (filename : Str) (lineNum : Nat) (st : PSt) (raw : Str) :
    Except ConfigErr PSt :=
  let line := stripCfg raw
  if line = [] then .ok st
  else if line.take 1 = ['#'] ∨ line.take 1 = [';'] then .ok st
  else if line.take 1 = ['['] then
    if line.getLast? = some ']' then
      let t := stripCfg ((line.drop 1).dropLast)
      .ok ⟨cfgEnsure st.cfg t, t⟩
    else .error (.badLine filename lineNum line)
  else
    match partChar '=' line with
    | none => .ok st
    | some (f, v) =>
      let field := stripCfg f
      let value := stripCfg v
      .ok ⟨cfgSet (cfgEnsure st.cfg st.title) st.title field value, st.title⟩

/-- The line loop of `Config._load_config` (line numbers from 1). -/
def loadLines (filename : Str) : Nat → PSt → List Str → Except ConfigErr PSt
  | _, st, [] => .ok st
  | n, st, l :: ls =>
    match processLine filename n st l with
    | .error e => .error e
    | .ok st' => loadLines filename (n + 1) st' ls

/-- `Config._load_config`: read, split on newlines, process each line into
the given mapping. -/
def loadFile (fs : FS) (cfg : List ConfigItem) (filename : Str) :
    Except ConfigErr (List ConfigItem) :=
  match readFile fs filename with
  | .error e => .error e
  | .ok content =>
    match loadLines filename 1 ⟨cfg, settingsTitle⟩ (splitOnChar '\n' content) with
    | .error e => .error e
    | .ok st => .ok st.cfg

/-- The include loop of `Config.__init__` (the list iterated is the one
read before the loop, so includes added by an include file are not
followed). -/
def loadIncludes (fs : FS) (cfg : List ConfigItem) :
    List Str → Except ConfigErr (List ConfigItem)
  | [] => .ok cfg
  | fn :: rest =>
    match loadFile fs cfg fn with
    | .error e => .error e
    | .ok cfg' => loadIncludes fs cfg' rest

/-- `Config.__init__`: load the root file, then iterate
`get_settings().includes` — unguardedly, so a mapping with no settings
entry raises (`settingsMissing`) and a settings entry whose `includes` was
never assigned raises (`includesMissing`). -/
def load (fs : FS) (root : Str) : Except ConfigErr (List ConfigItem) :=
  match loadFile fs [] root with
  | .error e => .error e
  | .ok cfg =>
    match cfgFind cfg settingsTitle with
    | none => .error .settingsMissing
    | some s =>
      match s.includes with
      | none => .error .includesMissing
      | some incs => loadIncludes fs cfg incs

/-- Dispatch failure: `assert False, f'title ... not found'` in `Core.run`. -/
inductive RunErr where
  | titleNotFound (title : Str)
deriving DecidableEq, Repr

/-- The dispatcher's state: `Core.config`.  `Core.run` never writes it, so
the embedding threads it through unchanged. -/
structure CoreSt where
  config : List ConfigItem
deriving DecidableEq, Repr

/-- `Core.run(title, args)`: look the title up (absence is the
`titleNotFound` failure, raised before any variable resolution), then
resolve the entry's command.  Returns the possibly-updated state and the
resolved command with the prompts issued; execution itself is external. -/
def runCore (st : CoreSt) (title : Str) (args : List (ArgKey × Str))
    (inputs : List Str) : CoreSt × Except RunErr (Str × List Str) :=
  match cfgFind st.config title with
  | none => (st, .error (.titleNotFound title))
  | some it => (st, .ok (handleVariables it.command args inputs))

/-- The outcome parsing of `Core.interactive`: on nonzero picker exit no
selection; otherwise strip the captured output, find the first `':'` (none
means no selection), and return the text before it, whitespace-stripped, as
the selected title. -/
def selectTitle (code : Nat) (output : Str) : Option Str :=
  if code ≠ 0 then none
  else
    let line := stripCfg output
    match pyFind [':'] line with
    | none => none
    | some i => some (stripWS (line.take i))

/-- Test fixture: a root config with a section but no settings entry. -/
def fsNoSettings : FS := fun fn =>
  if fn = str "root" then some (some (str "[greet]\ncommand = echo hi"))
  else none

/-- Test fixture: a root config whose settings entry lacks `includes`. -/
def fsNoIncludes : FS := fun fn =>
  if fn = str "root" then some (some (str "[__SETTINGS__]\ntool = fzf"))
  else none

/-- Test fixture: a root config file that exists and decodes, to the empty
string. -/
def fsEmptyRoot : FS := fun fn =>
  if fn = str "root" then some (some (str "")) else none

/-- Test fixture: a root whose includes declare the same title twice with
different single fields. -/
def fsMerge : FS := fun fn =>
  if fn = str "root" then some (some (str "includes = fa,fb"))
  else if fn = str "fa" then some (some (str "[t]\ncommand = echo X"))
  else if fn = str "fb" then some (some (str "[t]\nflags = -y"))
  else none

/-! ### Evaluation equations for the fueled definitions -/

theorem replaceAllF_fuel (pat new : Str) :
    ∀ f g s, s.length ≤ f → s.length ≤ g →
      replaceAllF pat new f s = replaceAllF pat new g s := by
  intro f
  induction f with
  | zero =>
    intro g s hf _
    have hs : s = [] := List.length_eq_zero.mp (Nat.le_zero.mp hf)
    subst hs
    cases g <;> rfl
  | succ f ih =>
    intro g s hf hg
    cases s with
    | nil => cases g <;> rfl
    | cons c cs =>
      cases g with
      | zero => simp at hg
      | succ g =>
        simp only [List.length_cons] at hf hg
        simp only [replaceAllF]
        split
        · rw [ih g (cs.drop (pat.length - 1))
            (by simp [List.length_drop]; omega) (by simp [List.length_drop]; omega)]
        · rw [ih g cs (by omega) (by omega)]

theorem replaceAll_nil (pat new : Str) : replaceAll pat new [] = [] := rfl

theorem replaceAll_cons (pat new : Str) (c : Char) (cs : Str) :
    replaceAll pat new (c :: cs) =
      if pat ≠ [] ∧ begins pat (c :: cs) then
        new ++ replaceAll pat new (cs.drop (pat.length - 1))
      else c :: replaceAll pat new cs := by
  show replaceAllF pat new (c :: cs).length (c :: cs) = _
  simp only [List.length_cons, replaceAllF]
  split
  · rw [replaceAllF_fuel pat new cs.length (cs.drop (pat.length - 1)).length
      (cs.drop (pat.length - 1)) (by rw [List.length_drop]; exact Nat.sub_le _ _) le_rfl]
    rfl
  · rfl

theorem scanF_fuel :
    ∀ f g mode s, s.length < f → s.length < g →
      scanF f mode s = scanF g mode s := by
  intro f
  induction f with
  | zero => intro g mode s hf; exact absurd hf (Nat.not_lt_zero _)
  | succ f ih =>
    intro g mode s hf hg
    cases g with
    | zero => exact absurd hg (Nat.not_lt_zero _)
    | succ g =>
      cases mode with
      | none =>
        cases s with
        | nil => rfl
        | cons c cs =>
          simp only [List.length_cons] at hf hg
          simp only [scanF]
          split
          · exact ih g (some []) (cs.drop 2)
              (by simp [List.length_drop]; omega) (by simp [List.length_drop]; omega)
          · exact ih g none cs (by omega) (by omega)
      | some acc =>
        cases s with
        | nil => rfl
        | cons c cs =>
          simp only [List.length_cons] at hf hg
          simp only [scanF]
          split
          · rw [ih g none cs (by omega) (by omega)]
          · exact ih g (some (acc ++ [c])) cs (by omega) (by omega)

theorem occs_nil : occs [] = [] := rfl

theorem occs_cons (c : Char) (cs : Str) :
    occs (c :: cs) =
      if begins markOpen (c :: cs) then scanInner [] (cs.drop 2) else occs cs := by
  show scanF ((c :: cs).length + 1) none (c :: cs) = _
  simp only [List.length_cons, scanF]
  split
  · exact scanF_fuel (cs.length + 1) ((cs.drop 2).length + 1) (some []) (cs.drop 2)
      (by rw [List.length_drop]; omega) (by omega)
  · rfl

theorem scanInner_nil (acc : Str) : scanInner acc [] = [] := rfl

theorem scanInner_cons (acc : Str) (c : Char) (cs : Str) :
    scanInner acc (c :: cs) =
      if c = ')' then mkOcc acc :: occs cs else scanInner (acc ++ [c]) cs := by
  show scanF ((c :: cs).length + 1) (some acc) (c :: cs) = _
  simp only [List.length_cons, scanF]
  split
  · rfl
  · rfl

/-! ### Facts about `begins` -/

theorem begins_le : ∀ pat s : Str, begins pat s = true → pat.length ≤ s.length := by
  intro pat
  induction pat with
  | nil => intro s _; simp
  | cons p ps ih =>
    intro s h
    cases s with
    | nil => simp [begins] at h
    | cons c cs =>
      simp only [begins] at h
      split at h
      · simpa using ih cs h
      · simp at h

theorem begins_iff (pat : Str) : ∀ s : Str, begins pat s = true ↔ ∃ r, s = pat ++ r := by
  induction pat with
  | nil => intro s; simp [begins]
  | cons p ps ih =>
    intro s
    cases s with
    | nil =>
      simp only [begins]
      constructor
      · intro h; simp at h
      · rintro ⟨r, hr⟩; simp at hr
    | cons c cs =>
      simp only [begins]
      split
      · next he =>
        subst he
        rw [ih cs]
        constructor
        · rintro ⟨r, hr⟩; exact ⟨r, by simp [hr]⟩
        · rintro ⟨r, hr⟩
          simp only [List.cons_append, List.cons.injEq] at hr
          exact ⟨r, hr.2⟩
      · next he =>
        constructor
        · intro h; simp at h
        · rintro ⟨r, hr⟩
          simp only [List.cons_append, List.cons.injEq] at hr
          exact absurd hr.1.symm he

theorem begins_append_left (pat s t : Str) (h : begins pat s = true) :
    begins pat (s ++ t) = true := by
  obtain ⟨r, hr⟩ := (begins_iff pat s).mp h
  exact (begins_iff pat (s ++ t)).mpr ⟨r ++ t, by simp [hr]⟩

theorem begins_append_eq (pat : Str) :
    ∀ s t : Str, pat.length ≤ s.length → begins pat (s ++ t) = begins pat s := by
  induction pat with
  | nil => intro s t _; simp [begins]
  | cons p ps ih =>
    intro s t h
    cases s with
    | nil => simp at h
    | cons c cs =>
      simp only [List.cons_append, begins]
      split
      · exact ih cs t (by simpa using h)
      · rfl

/-! ### The scan collects nothing once no closing character remains -/

theorem scanInner_noClose : ∀ s acc : Str, ')' ∉ s → scanInner acc s = [] := by
  intro s
  induction s with
  | nil => intro acc _; rfl
  | cons c cs ih =>
    intro acc h
    rw [scanInner_cons]
    rw [if_neg (fun e => h (by simp [e]))]
    exact ih _ (fun m => h (List.mem_cons_of_mem _ m))

theorem occs_noClose : ∀ s : Str, ')' ∉ s → occs s = [] := by
  intro s
  induction s with
  | nil => intro _; rfl
  | cons c cs ih =>
    intro h
    rw [occs_cons]
    split
    · exact scanInner_noClose _ _
        (fun m => h (List.mem_cons_of_mem _ (List.mem_of_mem_drop m)))
    · exact ih (fun m => h (List.mem_cons_of_mem _ m))

/-- Appending text that contains no `')'` does not change the scanned
occurrences: the appended text can only contribute marker openers whose
closing character never comes, and the scan collects nothing from those. -/
theorem scan_append (q : Str) (hq : ')' ∉ q) :
    ∀ n, (∀ p : Str, p.length ≤ n → occs (p ++ q) = occs p) ∧
      (∀ u acc : Str, u.length ≤ n → scanInner acc (u ++ q) = scanInner acc u) := by
  intro n
  induction n with
  | zero =>
    constructor
    · intro p hp
      have hp' : p = [] := List.length_eq_zero.mp (Nat.le_zero.mp hp)
      subst hp'
      simpa using occs_noClose q hq
    · intro u acc hu
      have hu' : u = [] := List.length_eq_zero.mp (Nat.le_zero.mp hu)
      subst hu'
      simpa using scanInner_noClose q acc hq
  | succ n ih =>
    constructor
    · intro p hp
      cases p with
      | nil => simpa using occs_noClose q hq
      | cons c cs =>
        have hcs : cs.length ≤ n := by
          simp only [List.length_cons] at hp
          omega
        rw [List.cons_append, occs_cons, occs_cons]
        by_cases hb : begins markOpen (c :: cs) = true
        · rw [if_pos (by simpa using begins_append_left markOpen (c :: cs) q hb),
            if_pos hb]
          have h3 : 2 ≤ cs.length := by
            have := begins_le markOpen (c :: cs) hb
            simp [markOpen] at this
            omega
          rw [List.drop_append_eq_append_drop, Nat.sub_eq_zero_of_le h3,
            List.drop_zero]
          have hd : (cs.drop 2).length ≤ n := by
            rw [List.length_drop]
            omega
          exact ih.2 (cs.drop 2) [] hd
        · by_cases hb2 : begins markOpen (c :: (cs ++ q)) = true
          · rw [if_pos hb2, if_neg hb]
            have hlen : cs.length ≤ 1 := by
              by_contra hcon
              push_neg at hcon
              have heq : begins markOpen ((c :: cs) ++ q) = begins markOpen (c :: cs) := by
                refine begins_append_eq markOpen (c :: cs) q ?_
                simp only [markOpen, List.length_cons, List.length_nil]
                omega
              rw [List.cons_append] at heq
              exact hb (heq ▸ hb2)
            have hdrop : (cs ++ q).drop 2 = q.drop (2 - cs.length) := by
              rw [List.drop_append_eq_append_drop,
                List.drop_eq_nil_of_le (by omega), List.nil_append]
            rw [hdrop, scanInner_noClose _ _ (fun m => hq (List.mem_of_mem_drop m))]
            cases cs with
            | nil => rfl
            | cons d ds =>
              have hds : ds = [] := by
                simp only [List.length_cons] at hlen
                exact List.length_eq_zero.mp (by omega)
              subst hds
              rw [occs_cons]
              have hnb : ¬ begins markOpen [d] = true := by
                intro hdd
                have := begins_le markOpen [d] hdd
                simp [markOpen] at this
              rw [if_neg hnb]
              rfl
          · rw [if_neg hb2, if_neg hb]
            exact ih.1 cs hcs
    · intro u acc hu
      cases u with
      | nil => simpa using scanInner_noClose q acc hq
      | cons c cs =>
        have hcs : cs.length ≤ n := by
          simp only [List.length_cons] at hu
          omega
        rw [List.cons_append, scanInner_cons, scanInner_cons]
        by_cases hc : c = ')'
        · rw [if_pos hc, if_pos hc, ih.1 cs hcs]
        · rw [if_neg hc, if_neg hc]
          exact ih.2 cs (acc ++ [c]) hcs

/-- A template with an unterminated marker opener scans to exactly the
occurrences of the part before the opener. -/
theorem occs_unterminated (p q : Str) (hq : ')' ∉ q) :
    occs (p ++ markOpen ++ q) = occs p := by
  have hq' : ')' ∉ markOpen ++ q := by
    intro m
    rcases List.mem_append.mp m with h | h
    · simp [markOpen] at h
    · exact hq h
  rw [List.append_assoc]
  exact (scan_append (markOpen ++ q) hq' p.length).1 p le_rfl

/-! ### Replacement preserves a suffix free of the closing character -/

theorem lastMem : ∀ (xs ys l : Str) (c : Char),
    xs ++ ys = l ++ [c] → ys ≠ [] → c ∈ ys := by
  intro xs
  induction xs with
  | nil =>
    intro ys l c h _
    simp only [List.nil_append] at h
    subst h
    exact List.mem_append.mpr (Or.inr (List.mem_singleton.mpr rfl))
  | cons x xs ih =>
    intro ys l c h hne
    cases l with
    | nil =>
      simp only [List.cons_append, List.nil_append, List.cons.injEq] at h
      exact absurd (List.append_eq_nil.mp h.2).2 hne
    | cons y l' =>
      simp only [List.cons_append, List.cons.injEq] at h
      exact ih ys l' c h.2 hne

theorem replaceAll_id_of (pat new : Str) (hp : ')' ∈ pat) :
    ∀ s : Str, ')' ∉ s → replaceAll pat new s = s := by
  intro s
  induction s with
  | nil => intro _; rfl
  | cons c cs ih =>
    intro hs
    rw [replaceAll_cons]
    rw [if_neg (fun hb => by
      obtain ⟨r, hr⟩ := (begins_iff pat (c :: cs)).mp hb.2
      exact hs (hr ▸ List.mem_append.mpr (Or.inl hp)))]
    rw [ih (fun m => hs (List.mem_cons_of_mem _ m))]

theorem replaceAll_append (pat new l t : Str) (hp : pat = l ++ [')'])
    (ht : ')' ∉ t) :
    ∀ n, ∀ u : Str, u.length ≤ n →
      replaceAll pat new (u ++ t) = replaceAll pat new u ++ t := by
  have hmem : ')' ∈ pat := hp ▸ List.mem_append.mpr (Or.inr (List.mem_singleton.mpr rfl))
  have hne : pat ≠ [] := by rw [hp]; simp
  intro n
  induction n with
  | zero =>
    intro u hu
    have hu' : u = [] := List.length_eq_zero.mp (Nat.le_zero.mp hu)
    subst hu'
    simpa using replaceAll_id_of pat new hmem t ht
  | succ n ih =>
    intro u hu
    cases u with
    | nil => simpa using replaceAll_id_of pat new hmem t ht
    | cons c cs =>
      have hcs : cs.length ≤ n := by
        simp only [List.length_cons] at hu
        omega
      rw [List.cons_append, replaceAll_cons, replaceAll_cons]
      by_cases hb : begins pat (c :: cs) = true
      · rw [if_pos ⟨hne, by simpa using begins_append_left pat (c :: cs) t hb⟩,
          if_pos ⟨hne, hb⟩]
        have hlen : pat.length - 1 ≤ cs.length := by
          have := begins_le pat (c :: cs) hb
          simp only [List.length_cons] at this
          omega
        have hd : (cs.drop (pat.length - 1)).length ≤ n := by
          rw [List.length_drop]
          omega
        rw [List.drop_append_eq_append_drop, Nat.sub_eq_zero_of_le hlen,
          List.drop_zero, ih (cs.drop (pat.length - 1)) hd]
        exact (List.append_assoc new _ t).symm
      · have hb2 : ¬ begins pat (c :: (cs ++ t)) = true := by
          intro hbt
          obtain ⟨r, hr⟩ := (begins_iff pat (c :: (cs ++ t))).mp hbt
          rw [show c :: (cs ++ t) = (c :: cs) ++ t from rfl] at hr
          rcases List.append_eq_append_iff.mp hr.symm with ⟨a', ha1, _⟩ | ⟨c', hc1, hc2⟩
          · exact hb ((begins_iff pat (c :: cs)).mpr ⟨a', ha1⟩)
          · have hcne : c' ≠ [] := by
              rintro rfl
              refine hb ((begins_iff pat (c :: cs)).mpr ⟨[], ?_⟩)
              simpa using hc1.symm
            have hmem' : ')' ∈ c' := by
              refine lastMem (c :: cs) c' l ')' ?_ hcne
              rw [← hc1, hp]
            exact ht (hc2 ▸ List.mem_append.mpr (Or.inl hmem'))
        rw [if_neg (fun hx => hb2 hx.2), if_neg (fun hx => hb hx.2)]
        rw [ih cs hcs]
        rfl

/-- Replacement of a pattern ending in `')'` leaves a `')'`-free suffix
untouched. -/
theorem replaceAll_append' (pat new l u t : Str) (hp : pat = l ++ [')'])
    (ht : ')' ∉ t) :
    replaceAll pat new (u ++ t) = replaceAll pat new u ++ t :=
  replaceAll_append pat new l t hp ht u.length u le_rfl

/-! ### Shape of scanned occurrences and the variables table -/

theorem mkOcc_mark (inner : Str) :
    (mkOcc inner).mark = (markOpen ++ inner) ++ [')'] := by
  unfold mkOcc
  rcases h : partChar ':' (stripWS inner) with _ | ⟨n, d⟩ <;>
    simp [h, markClose, List.append_assoc]

theorem marks_shape :
    ∀ n, ∀ s : Str, s.length ≤ n →
      (∀ v ∈ occs s, ∃ l, v.mark = l ++ [')']) ∧
      (∀ acc, ∀ v ∈ scanInner acc s, ∃ l, v.mark = l ++ [')']) := by
  intro n
  induction n with
  | zero =>
    intro s hs
    have hs' : s = [] := List.length_eq_zero.mp (Nat.le_zero.mp hs)
    subst hs'
    simp [occs_nil, scanInner_nil]
  | succ n ih =>
    intro s hs
    cases s with
    | nil => simp [occs_nil, scanInner_nil]
    | cons c cs =>
      have hcs : cs.length ≤ n := by
        simp only [List.length_cons] at hs
        omega
      constructor
      · intro v hv
        rw [occs_cons] at hv
        split at hv
        · have hd : (cs.drop 2).length ≤ n := by
            rw [List.length_drop]
            omega
          exact (ih (cs.drop 2) hd).2 [] v hv
        · exact (ih cs hcs).1 v hv
      · intro acc v hv
        rw [scanInner_cons] at hv
        split at hv
        · rcases List.mem_cons.mp hv with rfl | hv'
          · exact ⟨markOpen ++ acc, mkOcc_mark acc⟩
          · exact (ih cs hcs).1 v hv'
        · exact (ih cs hcs).2 (acc ++ [c]) v hv

theorem occs_mark_shape (s : Str) : ∀ v ∈ occs s, ∃ l, v.mark = l ++ [')'] :=
  (marks_shape s.length s le_rfl).1

theorem mem_dictInsert : ∀ (t : List VarOcc) (v x : VarOcc),
    x ∈ dictInsert t v → x = v ∨ x ∈ t := by
  intro t
  induction t with
  | nil =>
    intro v x h
    simp [dictInsert] at h
    exact Or.inl h
  | cons w ws ih =>
    intro v x h
    simp only [dictInsert] at h
    split at h
    · rcases List.mem_cons.mp h with rfl | h'
      · exact Or.inl rfl
      · exact Or.inr (List.mem_cons_of_mem _ h')
    · rcases List.mem_cons.mp h with rfl | h'
      · exact Or.inr (List.mem_cons_self _ _)
      · rcases ih v x h' with h'' | h''
        · exact Or.inl h''
        · exact Or.inr (List.mem_cons_of_mem _ h'')

theorem mem_foldl_dictInsert : ∀ (ol : List VarOcc) (t : List VarOcc) (x : VarOcc),
    x ∈ ol.foldl dictInsert t → x ∈ t ∨ x ∈ ol := by
  intro ol
  induction ol with
  | nil => intro t x h; exact Or.inl h
  | cons v vs ih =>
    intro t x h
    rcases ih (dictInsert t v) x h with h' | h'
    · rcases mem_dictInsert t v x h' with rfl | h''
      · exact Or.inr (List.mem_cons_self _ _)
      · exact Or.inl h''
    · exact Or.inr (List.mem_cons_of_mem _ h')

theorem mem_varTable (s : Str) (x : VarOcc) (h : x ∈ varTable s) : x ∈ occs s := by
  rcases mem_foldl_dictInsert (occs s) [] x h with h' | h'
  · simp at h'
  · exact h'

theorem varTable_mark_shape (s : Str) : ∀ v ∈ varTable s, ∃ l, v.mark = l ++ [')'] :=
  fun v hv => occs_mark_shape s v (mem_varTable s v hv)

theorem lookupVar_dictInsert : ∀ (t : List VarOcc) (v : VarOcc) (n : Str),
    lookupVar (dictInsert t v) n =
      if v.name = n then some v else lookupVar t n := by
  intro t
  induction t with
  | nil => intro v n; rfl
  | cons w ws ih =>
    intro v n
    simp only [dictInsert]
    by_cases hw : w.name = v.name
    · rw [if_pos hw]
      simp only [lookupVar]
      by_cases hv : v.name = n
      · rw [if_pos hv, if_pos hv]
      · rw [if_neg hv, if_neg hv, if_neg (hw ▸ hv)]
    · rw [if_neg hw]
      simp only [lookupVar, ih v n]
      by_cases hwn : w.name = n
      · rw [if_pos hwn, if_neg (fun hv => hw (hwn.trans hv.symm)), if_pos hwn]
      · rw [if_neg hwn, if_neg hwn]

theorem lookupVar_foldl_dictInsert : ∀ (ol : List VarOcc) (t : List VarOcc) (n : Str),
    lookupVar (ol.foldl dictInsert t) n =
      match lastNamed ol n with
      | some v => some v
      | none => lookupVar t n := by
  intro ol
  induction ol with
  | nil => intro t n; rfl
  | cons v vs ih =>
    intro t n
    simp only [List.foldl_cons, ih (dictInsert t v) n, lastNamed]
    cases lastNamed vs n with
    | some w => rfl
    | none =>
      simp only [lookupVar_dictInsert]
      by_cases hv : v.name = n
      · rw [if_pos hv, if_pos hv]
      · rw [if_neg hv, if_neg hv]

/-- The variables table looks names up to the data of the last-seen
occurrence of the name. -/
theorem varTable_lastNamed (s : Str) (n : Str) :
    lookupVar (varTable s) n = lastNamed (occs s) n := by
  rw [varTable, lookupVar_foldl_dictInsert (occs s) [] n]
  cases lastNamed (occs s) n <;> rfl

theorem lookupVar_mem : ∀ (vs : List VarOcc) (n : Str) (v : VarOcc),
    lookupVar vs n = some v → v ∈ vs := by
  intro vs
  induction vs with
  | nil => intro n v h; simp [lookupVar] at h
  | cons w ws ih =>
    intro n v h
    simp only [lookupVar] at h
    split at h
    · exact (Option.some.injEq _ _ ▸ h) ▸ List.mem_cons_self _ _
    · exact List.mem_cons_of_mem _ (ih n v h)

theorem keyLookup_mem (vs : List VarOcc) (k : ArgKey) (v : VarOcc)
    (h : keyLookup vs k = some v) : v ∈ vs := by
  cases k with
  | pos i => simp [keyLookup] at h
  | name n => exact lookupVar_mem vs n v h

theorem removeVar_subset : ∀ (vs : List VarOcc) (n : Str) (x : VarOcc),
    x ∈ removeVar vs n → x ∈ vs := by
  intro vs
  induction vs with
  | nil => intro n x h; simp [removeVar] at h
  | cons w ws ih =>
    intro n x h
    simp only [removeVar] at h
    split at h
    · exact List.mem_cons_of_mem _ h
    · rcases List.mem_cons.mp h with rfl | h'
      · exact List.mem_cons_self _ _
      · exact List.mem_cons_of_mem _ (ih n x h')

theorem lookupVar_removeVar : ∀ (vs : List VarOcc) (n m : Str), n ≠ m →
    lookupVar (removeVar vs n) m = lookupVar vs m := by
  intro vs
  induction vs with
  | nil => intro n m _; rfl
  | cons w ws ih =>
    intro n m hnm
    simp only [removeVar]
    by_cases hw : w.name = n
    · rw [if_pos hw]
      simp only [lookupVar]
      rw [if_neg (fun hm => hnm (hw.symm.trans hm))]
    · rw [if_neg hw]
      simp only [lookupVar]
      by_cases hwm : w.name = m
      · rw [if_pos hwm, if_pos hwm]
      · rw [if_neg hwm, if_neg hwm]
        exact ih n m hnm

/-! ### The three binding passes -/

theorem namedPass_nilVars : ∀ (args : List (ArgKey × Str)) (cmd : Str),
    namedPass cmd args [] = ⟨cmd, args, []⟩ := by
  intro args
  induction args with
  | nil => intro cmd; rfl
  | cons kv rest ih =>
    intro cmd
    obtain ⟨k, val⟩ := kv
    have hk : keyLookup ([] : List VarOcc) k = none := by cases k <;> rfl
    simp [namedPass, hk, ih cmd]

theorem positionalPass_nilVars (cmd : Str) (vals : List Str) :
    positionalPass cmd vals [] = (cmd, []) := by
  cases vals <;> rfl

theorem namedPass_vars_subset : ∀ (args : List (ArgKey × Str)) (cmd : Str)
    (vars : List VarOcc) (x : VarOcc),
    x ∈ (namedPass cmd args vars).vars → x ∈ vars := by
  intro args
  induction args with
  | nil => intro cmd vars x h; exact h
  | cons kv rest ih =>
    intro cmd vars x h
    obtain ⟨k, val⟩ := kv
    simp only [namedPass] at h
    cases hk : keyLookup vars k with
    | none =>
      rw [hk] at h
      exact ih cmd vars x h
    | some v =>
      rw [hk] at h
      cases k with
      | pos i => simp [keyLookup] at hk
      | name n => exact removeVar_subset vars n x (ih _ _ x h)

theorem positionalPass_vars_subset : ∀ (vals : List Str) (cmd : Str)
    (vars : List VarOcc) (x : VarOcc),
    x ∈ (positionalPass cmd vals vars).2 → x ∈ vars := by
  intro vals
  induction vals with
  | nil => intro cmd vars x h; exact h
  | cons y ys ih =>
    intro cmd vars x h
    cases vars with
    | nil => simp [positionalPass] at h
    | cons v vs =>
      simp only [positionalPass] at h
      exact List.mem_cons_of_mem _ (ih _ vs x h)

theorem namedPass_append (t : Str) (ht : ')' ∉ t) :
    ∀ (args : List (ArgKey × Str)) (cmd : Str) (vars : List VarOcc),
      (∀ v ∈ vars, ∃ l, v.mark = l ++ [')']) →
      namedPass (cmd ++ t) args vars =
        ⟨(namedPass cmd args vars).cmd ++ t, (namedPass cmd args vars).rem,
          (namedPass cmd args vars).vars⟩ := by
  intro args
  induction args with
  | nil => intro cmd vars _; rfl
  | cons kv rest ih =>
    intro cmd vars hm
    obtain ⟨k, val⟩ := kv
    simp only [namedPass]
    cases hk : keyLookup vars k with
    | none => simp [ih cmd vars hm]
    | some v =>
      cases k with
      | pos i => simp [keyLookup] at hk
      | name n =>
        obtain ⟨l, hl⟩ := hm v (keyLookup_mem vars (ArgKey.name n) v hk)
        have hstep := ih (replaceAll v.mark val cmd) (removeVar vars n)
          (fun w hw => hm w (removeVar_subset _ _ w hw))
        rw [← replaceAll_append' v.mark val l cmd t hl ht] at hstep
        exact hstep

theorem positionalPass_append (t : Str) (ht : ')' ∉ t) :
    ∀ (vals : List Str) (cmd : Str) (vars : List VarOcc),
      (∀ v ∈ vars, ∃ l, v.mark = l ++ [')']) →
      positionalPass (cmd ++ t) vals vars =
        ((positionalPass cmd vals vars).1 ++ t, (positionalPass cmd vals vars).2) := by
  intro vals
  induction vals with
  | nil => intro cmd vars _; rfl
  | cons x xs ih =>
    intro cmd vars hm
    cases vars with
    | nil => rfl
    | cons v vs =>
      obtain ⟨l, hl⟩ := hm v (List.mem_cons_self _ _)
      simp only [positionalPass]
      rw [replaceAll_append' v.mark x l cmd t hl ht]
      exact ih _ vs (fun w hw => hm w (List.mem_cons_of_mem _ hw))

theorem interactivePass_append (t : Str) (ht : ')' ∉ t) :
    ∀ (vars : List VarOcc) (cmd : Str) (inputs : List Str),
      (∀ v ∈ vars, ∃ l, v.mark = l ++ [')']) →
      interactivePass (cmd ++ t) vars inputs =
        ((interactivePass cmd vars inputs).1 ++ t,
          (interactivePass cmd vars inputs).2) := by
  intro vars
  induction vars with
  | nil => intro cmd inputs _; rfl
  | cons v vs ih =>
    intro cmd inputs hm
    obtain ⟨l, hl⟩ := hm v (List.mem_cons_self _ _)
    simp only [interactivePass]
    rw [replaceAll_append' v.mark _ l cmd t hl ht]
    rw [ih _ inputs.tail (fun w hw => hm w (List.mem_cons_of_mem _ hw))]

/-- After the named pass, the bindings kept (in order) are exactly those
whose key matched no variable: positional keys and unmatched names. -/
theorem namedPass_rem : ∀ (args : List (ArgKey × Str)) (cmd : Str) (vars : List VarOcc),
    (args.map Prod.fst).Nodup →
    (namedPass cmd args vars).rem =
      args.filter (fun kv => (keyLookup vars kv.1).isNone) := by
  intro args
  induction args with
  | nil => intro cmd vars _; rfl
  | cons kv rest ih =>
    intro cmd vars hnd
    obtain ⟨k, val⟩ := kv
    simp only [List.map_cons, List.nodup_cons] at hnd
    obtain ⟨hk_notin, hnd'⟩ := hnd
    simp only [namedPass]
    cases hk : keyLookup vars k with
    | none =>
      simp [List.filter_cons, hk, ih cmd vars hnd']
    | some v =>
      cases k with
      | pos i => simp [keyLookup] at hk
      | name n =>
        have hrhs : ((ArgKey.name n, val) :: rest).filter
            (fun kv => (keyLookup vars kv.1).isNone) =
            rest.filter (fun kv => (keyLookup vars kv.1).isNone) := by
          simp [List.filter_cons, hk]
        rw [hrhs]
        have h2 : rest.filter
            (fun kv => (keyLookup (removeVar vars n) kv.1).isNone) =
            rest.filter (fun kv => (keyLookup vars kv.1).isNone) := by
          refine List.filter_congr ?_
          intro kv hkv
          obtain ⟨kk, vv⟩ := kv
          cases kk with
          | pos j => rfl
          | name m =>
            simp only [keyLookup]
            have hmn : n ≠ m := by
              rintro rfl
              exact hk_notin (by simpa using List.mem_map_of_mem Prod.fst hkv)
            rw [lookupVar_removeVar vars n m hmn]
        exact (ih (replaceAll v.mark val cmd) (removeVar vars n) hnd').trans h2

/-- The positional pass zips pending variables with the remaining values
and substitutes pairwise; leftover variables are the pending ones past the
value count. -/
theorem positionalPass_zip : ∀ (vals : List Str) (cmd : Str) (vars : List VarOcc),
    positionalPass cmd vals vars =
      ((vars.zip vals).foldl (fun c vx => replaceAll vx.1.mark vx.2 c) cmd,
        vars.drop vals.length) := by
  intro vals
  induction vals with
  | nil => intro cmd vars; simp [positionalPass]
  | cons x xs ih =>
    intro cmd vars
    cases vars with
    | nil => simp [positionalPass]
    | cons v vs =>
      simp only [positionalPass, List.zip_cons_cons, List.foldl_cons,
        List.length_cons, List.drop_succ_cons, ih]

/-- A template with no complete markers resolves to itself: nothing is
substituted, no binding is consumed, no prompt is issued. -/
theorem handleVariables_noMarks (t : Str) (args : List (ArgKey × Str))
    (inputs : List Str) (h : occs t = []) :
    handleVariables t args inputs = (t, []) := by
  have hvt : varTable t = [] := by simp [varTable, h]
  simp only [handleVariables, hvt, namedPass_nilVars args t,
    positionalPass_nilVars]
  rfl

theorem handleVariables_single_named (t : Str) (v : VarOcc) (val : Str)
    (inputs : List Str) (h : occs t = [v]) :
    handleVariables t [(ArgKey.name v.name, val)] inputs =
      (replaceAll v.mark val t, []) := by
  have hvt : varTable t = [v] := by simp [varTable, h, dictInsert]
  simp [handleVariables, hvt, namedPass, keyLookup, lookupVar, removeVar,
    positionalPass, interactivePass]

theorem handleVariables_single_prompt (t : Str) (v : VarOcc)
    (inputs : List Str) (h : occs t = [v]) (hi : inputs.headD [] = []) :
    handleVariables t [] inputs = (replaceAll v.mark v.dflt t, [v.fullName]) := by
  have hvt : varTable t = [v] := by simp [varTable, h, dictInsert]
  have hi' : inputs.head?.getD [] = [] := by
    cases inputs with
    | nil => rfl
    | cons a as => simpa [List.headD] using hi
  simp [handleVariables, hvt, namedPass, positionalPass, interactivePass, hi']

/-! ### Configuration loading: the per-title uniqueness invariant -/

theorem setField_title (f v : Str) (it : ConfigItem) :
    (setField f v it).title = it.title := by
  unfold setField
  split_ifs <;> rfl

theorem cfgSet_titles (cfg : List ConfigItem) (t f v : Str) :
    (cfgSet cfg t f v).map (fun it => it.title) = cfg.map (fun it => it.title) := by
  unfold cfgSet
  rw [List.map_map]
  refine List.map_congr_left ?_
  intro it _
  simp only [Function.comp]
  split
  · exact setField_title f v it
  · rfl

theorem cfgHas_false_not_mem : ∀ (cfg : List ConfigItem) (t : Str),
    cfgHas cfg t = false → t ∉ cfg.map (fun it => it.title) := by
  intro cfg
  induction cfg with
  | nil => intro t _; simp
  | cons it rest ih =>
    intro t h
    simp only [cfgHas, cfgFind] at h
    simp only [List.map_cons, List.mem_cons]
    rintro (rfl | hmem)
    · rw [if_pos rfl] at h
      simp at h
    · by_cases he : it.title = t
      · rw [if_pos he] at h
        simp at h
      · rw [if_neg he] at h
        exact ih t h hmem

theorem cfgEnsure_nodup (cfg : List ConfigItem) (t : Str)
    (h : (cfg.map (fun it => it.title)).Nodup) :
    ((cfgEnsure cfg t).map (fun it => it.title)).Nodup := by
  unfold cfgEnsure
  split
  · exact h
  · next hhas =>
    have hnot : t ∉ cfg.map (fun it => it.title) :=
      cfgHas_false_not_mem cfg t (Bool.not_eq_true _ ▸ hhas)
    simp [List.map_append, List.nodup_append, h, hnot, ConfigItem.new]

theorem cfgEnsure_titles_sub (cfg : List ConfigItem) (t : Str) :
    ∀ x, x ∈ cfg.map (fun it => it.title) → x ∈ (cfgEnsure cfg t).map (fun it => it.title) := by
  intro x hx
  unfold cfgEnsure
  split
  · exact hx
  · simp only [List.map_append, List.mem_append]
    exact Or.inl hx

theorem processLine_nodup (fn : Str) (n : Nat) (st : PSt) (raw : Str) (st' : PSt)
    (h : (st.cfg.map (fun it => it.title)).Nodup)
    (hok : processLine fn n st raw = .ok st') :
    (st'.cfg.map (fun it => it.title)).Nodup := by
  simp only [processLine] at hok
  split_ifs at hok with h1 h2 h3 h4
  · obtain rfl := Except.ok.inj hok
    exact h
  · obtain rfl := Except.ok.inj hok
    exact h
  · obtain rfl := Except.ok.inj hok
    exact cfgEnsure_nodup st.cfg _ h
  · revert hok
    split
    · intro hok
      obtain rfl := Except.ok.inj hok
      exact h
    · next f v _ =>
      intro hok
      obtain rfl := Except.ok.inj hok
      show ((cfgSet (cfgEnsure st.cfg st.title) st.title (stripCfg f)
        (stripCfg v)).map (fun it => it.title)).Nodup
      rw [cfgSet_titles]
      exact cfgEnsure_nodup st.cfg st.title h

theorem loadLines_nodup : ∀ (ls : List Str) (fn : Str) (n : Nat) (st st' : PSt),
    (st.cfg.map (fun it => it.title)).Nodup →
    loadLines fn n st ls = .ok st' →
    (st'.cfg.map (fun it => it.title)).Nodup := by
  intro ls
  induction ls with
  | nil =>
    intro fn n st st' h hok
    obtain rfl := Except.ok.inj hok
    exact h
  | cons l rest ih =>
    intro fn n st st' h hok
    simp only [loadLines] at hok
    cases hp : processLine fn n st l with
    | error e =>
      rw [hp] at hok
      exact Except.noConfusion
        (show (Except.error e : Except ConfigErr PSt) = Except.ok st' from hok)
    | ok st1 =>
      rw [hp] at hok
      exact ih fn (n + 1) st1 st' (processLine_nodup fn n st l st1 h hp)
        (show loadLines fn (n + 1) st1 rest = Except.ok st' from hok)

theorem loadFile_nodup (fs : FS) (cfg : List ConfigItem) (fn : Str)
    (cfg' : List ConfigItem)
    (h : (cfg.map (fun it => it.title)).Nodup)
    (hok : loadFile fs cfg fn = .ok cfg') :
    (cfg'.map (fun it => it.title)).Nodup := by
  unfold loadFile at hok
  cases hr : readFile fs fn with
  | error e =>
    rw [hr] at hok
    exact Except.noConfusion
      (show (Except.error e : Except ConfigErr (List ConfigItem)) = Except.ok cfg'
        from hok)
  | ok content =>
    rw [hr] at hok
    have hok1 : (match loadLines fn 1 ⟨cfg, settingsTitle⟩ (splitOnChar '\n' content) with
        | Except.error e => (Except.error e : Except ConfigErr (List ConfigItem))
        | Except.ok st => Except.ok st.cfg) = Except.ok cfg' := hok
    cases hl : loadLines fn 1 ⟨cfg, settingsTitle⟩ (splitOnChar '\n' content) with
    | error e =>
      rw [hl] at hok1
      exact Except.noConfusion
        (show (Except.error e : Except ConfigErr (List ConfigItem)) = Except.ok cfg'
          from hok1)
    | ok st =>
      rw [hl] at hok1
      have hok2 : Except.ok st.cfg = Except.ok cfg' := hok1
      obtain rfl := Except.ok.inj hok2
      exact loadLines_nodup _ fn 1 ⟨cfg, settingsTitle⟩ st h hl

theorem loadIncludes_nodup : ∀ (incs : List Str) (fs : FS) (cfg cfg' : List ConfigItem),
    (cfg.map (fun it => it.title)).Nodup →
    loadIncludes fs cfg incs = .ok cfg' →
    (cfg'.map (fun it => it.title)).Nodup := by
  intro incs
  induction incs with
  | nil =>
    intro fs cfg cfg' h hok
    obtain rfl := Except.ok.inj hok
    exact h
  | cons i rest ih =>
    intro fs cfg cfg' h hok
    simp only [loadIncludes] at hok
    cases hf : loadFile fs cfg i with
    | error e =>
      rw [hf] at hok
      exact Except.noConfusion
        (show (Except.error e : Except ConfigErr (List ConfigItem)) = Except.ok cfg'
          from hok)
    | ok cfg1 =>
      rw [hf] at hok
      exact ih fs cfg1 cfg' (loadFile_nodup fs cfg i cfg1 h hf)
        (show loadIncludes fs cfg1 rest = Except.ok cfg' from hok)

/-- Every successfully loaded configuration maps each title to exactly one
entry. -/
theorem load_nodup (fs : FS) (root : Str) (cfg : List ConfigItem)
    (hok : load fs root = .ok cfg) :
    (cfg.map (fun it => it.title)).Nodup := by
  unfold load at hok
  cases h0 : loadFile fs [] root with
  | error e =>
    rw [h0] at hok
    exact Except.noConfusion
      (show (Except.error e : Except ConfigErr (List ConfigItem)) = Except.ok cfg
        from hok)
  | ok cfg0 =>
    rw [h0] at hok
    have hn0 : (cfg0.map (fun it => it.title)).Nodup :=
      loadFile_nodup fs [] root cfg0 (by simp) h0
    have hok1 : (match cfgFind cfg0 settingsTitle with
        | none => (Except.error ConfigErr.settingsMissing :
            Except ConfigErr (List ConfigItem))
        | some s =>
          match s.includes with
          | none => Except.error ConfigErr.includesMissing
          | some incs => loadIncludes fs cfg0 incs) = Except.ok cfg := hok
    cases hs : cfgFind cfg0 settingsTitle with
    | none =>
      rw [hs] at hok1
      exact Except.noConfusion
        (show (Except.error ConfigErr.settingsMissing :
          Except ConfigErr (List ConfigItem)) = Except.ok cfg from hok1)
    | some s =>
      rw [hs] at hok1
      have hok2 : (match s.includes with
          | none => (Except.error ConfigErr.includesMissing :
              Except ConfigErr (List ConfigItem))
          | some incs => loadIncludes fs cfg0 incs) = Except.ok cfg := hok1
      cases hi : s.includes with
      | none =>
        rw [hi] at hok2
        exact Except.noConfusion
          (show (Except.error ConfigErr.includesMissing :
            Except ConfigErr (List ConfigItem)) = Except.ok cfg from hok2)
      | some incs =>
        rw [hi] at hok2
        exact loadIncludes_nodup incs fs cfg0 cfg hn0
          (show loadIncludes fs cfg0 incs = Except.ok cfg from hok2)

/-! ### Finding the first colon (selector outcome) -/

theorem pyFind_single_none (x : Char) : ∀ s : Str, pyFind [x] s = none ↔ x ∉ s := by
  intro s
  induction s with
  | nil => simp [pyFind, begins]
  | cons c cs ih =>
    by_cases hx : x = c
    · subst hx
      simp [pyFind, begins]
    · simp [pyFind, begins, hx, Option.map_eq_none', ih, Ne.symm hx]

theorem pyFind_first (x : Char) : ∀ (a b : Str), x ∉ a →
    pyFind [x] (a ++ x :: b) = some a.length := by
  intro a
  induction a with
  | nil => intro b _; simp [pyFind, begins]
  | cons c a' ih =>
    intro b hx
    have hne : ¬ x = c := fun he => hx (he ▸ List.mem_cons_self _ _)
    have hx' : x ∉ a' := fun hm => hx (List.mem_cons_of_mem _ hm)
    simp [pyFind, begins, hne, ih b hx']

/-- Resolution of a template extended with an unterminated marker opener
and a `')'`-free tail behaves exactly as resolution of the prefix, with the
tail carried along verbatim. -/
theorem handleVariables_append (p t' : Str) (args : List (ArgKey × Str))
    (inputs : List Str) (ht : ')' ∉ t') (hocc : occs (p ++ t') = occs p) :
    handleVariables (p ++ t') args inputs =
      ((handleVariables p args inputs).1 ++ t',
        (handleVariables p args inputs).2) := by
  have hvt : varTable (p ++ t') = varTable p := by
    unfold varTable
    rw [hocc]
  have hm := varTable_mark_shape p
  have h1 := namedPass_append t' ht args p (varTable p) hm
  have hm1 : ∀ v ∈ (namedPass p args (varTable p)).vars, ∃ l, v.mark = l ++ [')'] :=
    fun v hv => hm v (namedPass_vars_subset args p (varTable p) v hv)
  have h2 := positionalPass_append t' ht
    ((namedPass p args (varTable p)).rem.map Prod.snd)
    (namedPass p args (varTable p)).cmd (namedPass p args (varTable p)).vars hm1
  have hm2 : ∀ v ∈ (positionalPass (namedPass p args (varTable p)).cmd
      ((namedPass p args (varTable p)).rem.map Prod.snd)
      (namedPass p args (varTable p)).vars).2, ∃ l, v.mark = l ++ [')'] :=
    fun v hv => hm1 v (positionalPass_vars_subset _ _ _ v hv)
  have h3 := interactivePass_append t' ht
    (positionalPass (namedPass p args (varTable p)).cmd
      ((namedPass p args (varTable p)).rem.map Prod.snd)
      (namedPass p args (varTable p)).vars).2
    (positionalPass (namedPass p args (varTable p)).cmd
      ((namedPass p args (varTable p)).rem.map Prod.snd)
      (namedPass p args (varTable p)).vars).1 inputs hm2
  simp only [handleVariables, hvt, h1, h2, h3]

/-! ### The claims -/

/-- C1 (code_bug evidence): the claim says load succeeds on any
configuration text free of the three declared failure conditions,
including one with no settings section or no includes field, and that
`ConfigUnreadable` fires exactly when no encoding decodes the file.  The
code instead crashes on a well-formed config with no settings entry
(`get_settings()` is `None`), crashes when the settings entry has no
`includes` (iterating `None`), and reports "unable to read" for an empty
file that decodes perfectly (`assert content` is false on the empty
string). -/
theorem c1_load_crashes :
    load fsNoSettings (str "root") = .error ConfigErr.settingsMissing ∧
    load fsNoIncludes (str "root") = .error ConfigErr.includesMissing ∧
    load fsEmptyRoot (str "root") = .error (ConfigErr.unreadable (str "root")) :=
  ⟨rfl, rfl, rfl⟩

/-- C2 (counterexample): a binding keyed by the name `y`, which matches no
variable of the template `echo $(?x)`, is nevertheless consumed by the
positional pass and assigned to `x` — the resolved command is `echo foo`
with no prompt, not the prompted `echo z` the claim would require. -/
theorem c2_counterexample :
    handleVariables (str "echo $(?x)") [(ArgKey.name (str "y"), str "foo")]
      [str "z"] = (str "echo foo", []) ∧
    handleVariables (str "echo $(?x)") [(ArgKey.name (str "y"), str "foo")]
      [str "z"] ≠ (str "echo z", [str "x"]) :=
  ⟨rfl, by decide⟩

/-- C2 (amended): after the named pass, the bindings kept — in insertion
order — are exactly those whose key matched no variable (positional keys
and unmatched names alike); the positional pass then consumes the values
of all those remaining bindings, in order, zipping them onto the pending
variables in first-discovery order.  For a template with two markers and
one bare positional argument, the positional value binds to the first
marker in scan order and the second falls through to interactive/default
resolution. -/
theorem c2_amended_positional :
    (∀ (cmd : Str) (vars : List VarOcc) (args : List (ArgKey × Str)),
      (args.map Prod.fst).Nodup →
      (namedPass cmd args vars).rem =
        args.filter (fun kv => (keyLookup vars kv.1).isNone)) ∧
    (∀ (cmd : Str) (vals : List Str) (vars : List VarOcc),
      positionalPass cmd vals vars =
        ((vars.zip vals).foldl (fun c vx => replaceAll vx.1.mark vx.2 c) cmd,
          vars.drop vals.length)) ∧
    parseTitle [str "cp", str "a.txt"] =
      some (str "cp", [(ArgKey.pos 0, str "a.txt")]) ∧
    handleVariables (str "cp $(?src) $(?dst:/tmp)")
      [(ArgKey.pos 0, str "a.txt")] [[]] =
      (str "cp a.txt /tmp", [str "dst:/tmp"]) :=
  ⟨fun cmd vars args h => namedPass_rem args cmd vars h,
    fun cmd vals vars => positionalPass_zip vals cmd vars, rfl, rfl⟩

/-- Witness for the amended C2 at a concrete input: the unmatched named
binding `y` survives the named pass of `echo $(?x)`. -/
theorem c2_amended_positional_witness :
    (namedPass (str "echo $(?x)") [(ArgKey.name (str "y"), str "foo")]
      (varTable (str "echo $(?x)"))).rem =
      [(ArgKey.name (str "y"), str "foo")].filter
        (fun kv => (keyLookup (varTable (str "echo $(?x)")) kv.1).isNone) :=
  c2_amended_positional.1 (str "echo $(?x)") (varTable (str "echo $(?x)"))
    [(ArgKey.name (str "y"), str "foo")] (by decide)

/-- C3: the scan keeps one logical variable per name, carrying the default
and literal marker text of the last-seen occurrence (stated in general via
the table lookup), and substitution replaces only that last-seen literal
text, leaving an earlier occurrence with different literal text unresolved
in the output. -/
theorem c3_last_marker_wins :
    (∀ s n : Str, lookupVar (varTable s) n = lastNamed (occs s) n) ∧
    varTable (str "echo $(?x:a) $(?x:b)") =
      [⟨str "x", str "b", str "x:b", str "$(?x:b)"⟩] ∧
    handleVariables (str "echo $(?x:a) $(?x:b)")
      [(ArgKey.name (str "x"), str "V")] [] = (str "echo $(?x:a) V", []) :=
  ⟨varTable_lastNamed, rfl, rfl⟩

/-- C4: every successfully loaded configuration maps each title to exactly
one entry; a field assignment overwrites only the assigned field, leaving
the entry's title and other fields unchanged; and merging a root with two
includes that declare the same title with different single fields yields
one entry carrying both fields. -/
theorem c4_field_merge :
    (∀ (fs : FS) (root : Str) (cfg : List ConfigItem),
      load fs root = .ok cfg → (cfg.map (fun it => it.title)).Nodup) ∧
    (∀ (f v : Str) (it : ConfigItem), (setField f v it).title = it.title) ∧
    (∀ (f v : Str) (it : ConfigItem), f ≠ str "command" →
      (setField f v it).command = it.command) ∧
    (∀ (f v : Str) (it : ConfigItem), f ≠ str "tool" →
      (setField f v it).tool = it.tool) ∧
    (∀ (f v : Str) (it : ConfigItem), f ≠ str "flags" →
      (setField f v it).flags = it.flags) ∧
    (∀ (f v : Str) (it : ConfigItem), f ≠ str "includes" →
      (setField f v it).includes = it.includes) ∧
    load fsMerge (str "root") =
      .ok [⟨settingsTitle, [], none, none, some [str "fa", str "fb"]⟩,
        ⟨str "t", str "echo X", none, some (str "-y"), none⟩] := by
  refine ⟨load_nodup, setField_title, ?_, ?_, ?_, ?_, rfl⟩ <;>
    intro f v it hf <;> unfold setField <;>
    split_ifs <;> first | rfl | exact absurd (by assumption) hf

/-- Witness for C4: the concrete merged configuration has unique titles,
and setting `flags` leaves `command` unchanged. -/
theorem c4_witness :
    (([⟨settingsTitle, [], none, none, some [str "fa", str "fb"]⟩,
      ⟨str "t", str "echo X", none, some (str "-y"), none⟩] :
        List ConfigItem).map (fun it => it.title)).Nodup ∧
    (setField (str "flags") (str "-y") (ConfigItem.new (str "t"))).command =
      (ConfigItem.new (str "t")).command :=
  ⟨c4_field_merge.1 fsMerge (str "root") _ rfl,
    c4_field_merge.2.2.1 (str "flags") (str "-y") (ConfigItem.new (str "t"))
      (by decide)⟩

/-- C5: a named binding matching the (single) pending variable substitutes
every occurrence of that variable's literal marker text, consumes the
binding and the variable, and leaves nothing to prompt; concretely,
`ssh $(?host)` with `host=h1` resolves to `ssh h1` with no prompt and no
marker text remaining. -/
theorem c5_named_binding :
    (∀ (t : Str) (v : VarOcc) (val : Str) (inputs : List Str), occs t = [v] →
      handleVariables t [(ArgKey.name v.name, val)] inputs =
        (replaceAll v.mark val t, [])) ∧
    handleVariables (str "ssh $(?host)") [(ArgKey.name (str "host"), str "h1")]
      [] = (str "ssh h1", []) ∧
    pyFind (str "$(?host)") (str "ssh h1") = none :=
  ⟨handleVariables_single_named, rfl, rfl⟩

/-- Witness for C5 applied at the concrete single-marker template. -/
theorem c5_witness :
    handleVariables (str "ssh $(?host)")
      [(ArgKey.name (⟨str "host", [], str "host", str "$(?host)"⟩ : VarOcc).name,
        str "h1")] [] =
      (replaceAll (⟨str "host", [], str "host", str "$(?host)"⟩ : VarOcc).mark
        (str "h1") (str "ssh $(?host)"), []) :=
  c5_named_binding.1 (str "ssh $(?host)")
    ⟨str "host", [], str "host", str "$(?host)"⟩ (str "h1") [] rfl

/-- C6: a variable still pending at the interactive pass is prompted with
its full interior marker text, and an empty response resolves it to its
default — which is itself the empty string when the marker had no colon —
never an error and never a skipped substitution.  The spec's example:
`echo hi $(?who:world)` with no bindings and an empty response resolves to
`echo hi world` (one prompt), and with `who=alice` to `echo hi alice` with
zero prompts. -/
theorem c6_interactive_default :
    (∀ (t : Str) (v : VarOcc) (inputs : List Str), occs t = [v] →
      inputs.headD [] = [] →
      handleVariables t [] inputs = (replaceAll v.mark v.dflt t, [v.fullName])) ∧
    (∀ inner : Str, partChar ':' (stripWS inner) = none →
      (mkOcc inner).dflt = [] ∧ (mkOcc inner).name = stripWS inner) ∧
    handleVariables (str "echo hi $(?who:world)") [] [[]] =
      (str "echo hi world", [str "who:world"]) ∧
    handleVariables (str "echo hi $(?who:world)")
      [(ArgKey.name (str "who"), str "alice")] [] =
      (str "echo hi alice", []) := by
  refine ⟨handleVariables_single_prompt, ?_, rfl, rfl⟩
  intro inner hp
  simp [mkOcc, hp]

/-- Witness for C6 applied at the spec's example template with an empty
scripted response. -/
theorem c6_witness :
    handleVariables (str "echo hi $(?who:world)") [] [[]] =
      (replaceAll
        (⟨str "who", str "world", str "who:world", str "$(?who:world)"⟩ :
          VarOcc).mark
        (⟨str "who", str "world", str "who:world", str "$(?who:world)"⟩ :
          VarOcc).dflt
        (str "echo hi $(?who:world)"),
        [(⟨str "who", str "world", str "who:world", str "$(?who:world)"⟩ :
          VarOcc).fullName]) :=
  c6_interactive_default.1 (str "echo hi $(?who:world)")
    ⟨str "who", str "world", str "who:world", str "$(?who:world)"⟩ [[]] rfl rfl

/-- C7: dispatching a title absent from the configuration fails with the
title-not-found error before any variable resolution, and the dispatcher's
configuration state is returned unmodified (it is never written at all). -/
theorem c7_title_not_found :
    ∀ (st : CoreSt) (title : Str) (args : List (ArgKey × Str))
      (inputs : List Str),
      (runCore st title args inputs).1 = st ∧
      (cfgFind st.config title = none →
        runCore st title args inputs =
          (st, .error (RunErr.titleNotFound title))) := by
  intro st title args inputs
  constructor
  · unfold runCore
    cases cfgFind st.config title <;> rfl
  · intro h
    unfold runCore
    rw [h]

/-- Witness for C7 on the empty configuration. -/
theorem c7_witness :
    runCore ⟨[]⟩ (str "ghost") [] [] =
      (⟨[]⟩, .error (RunErr.titleNotFound (str "ghost"))) :=
  (c7_title_not_found ⟨[]⟩ (str "ghost") [] []).2 rfl

/-- C8: the selector reports no selection exactly when the picker exits
nonzero or the (stripped) output line contains no colon; on success the
selected title is the text before the first colon, whitespace-trimmed. -/
theorem c8_selector :
    ∀ (code : Nat) (output : Str),
      (selectTitle code output = none ↔ code ≠ 0 ∨ ':' ∉ stripCfg output) ∧
      (∀ a b : Str, stripCfg output = a ++ ':' :: b → ':' ∉ a → code = 0 →
        selectTitle code output = some (stripWS a)) := by
  intro code output
  constructor
  · by_cases hc : code = 0
    · subst hc
      simp only [selectTitle]
      rw [if_neg (fun h : (0 : Nat) ≠ 0 => h rfl)]
      cases hp : pyFind [':'] (stripCfg output) with
      | none =>
        have hmem := (pyFind_single_none ':' (stripCfg output)).mp hp
        simp [hmem]
      | some i =>
        have hmem : ':' ∈ stripCfg output := by
          by_contra hcon
          rw [(pyFind_single_none ':' (stripCfg output)).mpr hcon] at hp
          cases hp
        simp [hmem]
    · have hsel : selectTitle code output = none := by
        unfold selectTitle
        rw [if_pos hc]
      simp [hsel, hc]
  · intro a b hdec hna hc
    subst hc
    simp only [selectTitle]
    rw [if_neg (fun h : (0 : Nat) ≠ 0 => h rfl), hdec,
      pyFind_first ':' a b hna]
    show some (stripWS ((a ++ ':' :: b).take a.length)) = some (stripWS a)
    rw [List.take_left]

/-- Witness for C8 on a concrete picker output line. -/
theorem c8_witness :
    selectTitle 0 (str " greet  :echo hi") = some (str "greet") := by
  have h := (c8_selector 0 (str " greet  :echo hi")).2 (str "greet  ")
    (str "echo hi") (by decide) (by decide) rfl
  exact h.trans (by decide)

/-- C9: a template in which the scan finds no complete marker resolves to
itself under any bindings, with no prompt issued. -/
theorem c9_no_markers :
    ∀ (t : Str) (args : List (ArgKey × Str)) (inputs : List Str),
      occs t = [] → handleVariables t args inputs = (t, []) :=
  handleVariables_noMarks

/-- Witness for C9 on a marker-free template with a stray binding. -/
theorem c9_witness :
    handleVariables (str "echo hello") [(ArgKey.pos 0, str "x")] [str "y"] =
      (str "echo hello", []) :=
  c9_no_markers (str "echo hello") [(ArgKey.pos 0, str "x")] [str "y"] rfl

/-- C10: an unterminated marker opener (`$(?` with no later `)`) is not
collected as a variable: resolution of the extended template consumes the
same bindings and issues the same prompts as the prefix alone, and the
opener together with everything after it is returned verbatim.  (Scan
termination is inherent: the fueled scanner consumes at least one
character per step and `occs` supplies fuel `length + 1`.) -/
theorem c10_unterminated :
    (∀ (p q : Str) (args : List (ArgKey × Str)) (inputs : List Str),
      ')' ∉ q →
      handleVariables (p ++ markOpen ++ q) args inputs =
        ((handleVariables p args inputs).1 ++ markOpen ++ q,
          (handleVariables p args inputs).2)) ∧
    handleVariables (str "echo $(?a) mid $(?b oops")
      [(ArgKey.name (str "a"), str "A")] [] =
      (str "echo A mid $(?b oops", []) := by
  constructor
  · intro p q args inputs hq
    have hq' : ')' ∉ markOpen ++ q := by
      intro m
      rcases List.mem_append.mp m with h | h
      · simp [markOpen] at h
      · exact hq h
    have hocc : occs (p ++ (markOpen ++ q)) = occs p := by
      rw [← List.append_assoc]
      exact occs_unterminated p q hq
    have h := handleVariables_append p (markOpen ++ q) args inputs hq' hocc
    rw [List.append_assoc p markOpen q, h, List.append_assoc]
  · rfl

/-- Witness for C10 at a concrete template with an unterminated opener. -/
theorem c10_witness :
    handleVariables (str "echo $(?a) mid " ++ markOpen ++ str "b oops")
      [(ArgKey.name (str "a"), str "A")] [] =
      ((handleVariables (str "echo $(?a) mid ")
        [(ArgKey.name (str "a"), str "A")] []).1 ++ markOpen ++ str "b oops",
       (handleVariables (str "echo $(?a) mid ")
        [(ArgKey.name (str "a"), str "A")] []).2) :=
  c10_unterminated.1 (str "echo $(?a) mid ") (str "b oops")
    [(ArgKey.name (str "a"), str "A")] [] (by decide)

end H
